import Mathlib

/-!
Verification of the Sentinel governed tool-execution gateway.

This file gives a shallow embedding of the gateway's decision path and
proves properties of it: the redactor (`app/redaction.py`), the policy
engine (`app/policy.py`), server routing (`app/db/queries.py`), the
registration and approval mutations (`app/graphql_schema.py`), and the
paginated discovery loop of the stdio backend
(`app/tool_backends/mcp_stdio.py`).

Python strings are modelled by `String`; `str.startswith`, `str.endswith`
and the `in` substring test are modelled by executable functions on the
character list. Python dicts with string keys are association lists.
-/

/-- Does the first list start with the second (Python `startswith`)? -/
def startsList : List Char → List Char → Bool
  | _, [] => true
  | [], _ :: _ => false
  | x :: xs, y :: ys => x == y && startsList xs ys

/-- Python `haystack.startswith(needle)`. -/
def strStarts (s needle : String) : Bool :=
  startsList s.toList needle.toList

/-- Python `haystack.endswith(needle)`. -/
def strEnds (s needle : String) : Bool :=
  startsList s.toList.reverse needle.toList.reverse

/-- Does the first list contain the second as a contiguous sublist? -/
def hasSubList : List Char → List Char → Bool
  | [], needle => needle.isEmpty
  | x :: xs, needle => startsList (x :: xs) needle || hasSubList xs needle

/-- Python `needle in haystack` on strings. -/
def strHasSub (s needle : String) : Bool :=
  hasSubList s.toList needle.toList

/-- A Python value as observed by the gateway code: either a `str`, or any
other object carried together with its `str()` image (the code only ever
branches on `isinstance(v, str)` and on the stringified form). -/
inductive JVal
  | str (s : String)
  | other (repr : String)
deriving DecidableEq

/-- The `str()` image of a value. -/
def jstr : JVal → String
  | .str s => s
  | .other r => r

/-- A Python dict with string keys, as an association list (keys unique in
any state produced by the code; none of the proofs need that). -/
abbrev ArgsMap := List (String × JVal)

/-- Python `x or default` on an optional string (`None` and `""` falsy). -/
def orStr (o : Option String) (d : String) : String :=
  match o with
  | some s => if s == "" then d else s
  | none => d

/-! ## Redactor (`app/redaction.py`) -/

/-- `SENSITIVE_KEYS` from `app/redaction.py`. -/
def SENSITIVE_KEYS : List String := ["password", "secret", "token", "key"]

/-- Key is sensitive: `any(s in k.lower() for s in SENSITIVE_KEYS)`. -/
def sensitiveKey (k : String) : Bool :=
  SENSITIVE_KEYS.any (fun s => strHasSub k.toLower s)

/-- String value looks like a credential path:
`".env" in v or v.endswith(".key") or v.endswith(".pem")`. -/
def pathLike (v : String) : Bool :=
  strHasSub v ".env" || strEnds v ".key" || strEnds v ".pem"

/-- One entry of the redaction loop body in `redact_args`. -/
def redactVal (k : String) (v : JVal) : JVal :=
  if sensitiveKey k then .str "***REDACTED***"
  else
    match v with
    | .str s => if pathLike s then .str "***REDACTED_PATH***" else .str s
    | .other r => .other r

/-- `redact_args` from `app/redaction.py`: rebuilds the dict entrywise. -/
def redact_args (args : ArgsMap) : ArgsMap :=
  args.map (fun kv => (kv.1, redactVal kv.1 kv.2))

/-! ## Policy engine (`app/policy.py`) -/

/-- `BLOCKED_FILENAMES` from `app/policy.py`. -/
def BLOCKED_FILENAMES : List String := [".env", ".key", ".pem"]

/-- `_is_under_sandbox` from `app/policy.py`. -/
def is_under_sandbox (path : String) : Bool :=
  path == "/sandbox" || strStarts path "/sandbox/"

/-- The `str(args.get("path", ""))` read common to the built-in rules. -/
def readPath (args : ArgsMap) : String :=
  match args.lookup "path" with
  | some v => jstr v
  | none => ""

/-- The `risk` entry of a configured rule: a `float()`-convertible value
with rational value `q`, a value `float()` raises on, or absent. -/
inductive RiskF
  | num (q : ℚ)
  | bad
  | absent
deriving DecidableEq

/-- One configured rule of the policy table (`POLICY_PREFIX_RULES`): its
matching pattern and the `decision` / `reason` / `risk` entries; the
string-valued entries carry their `str()` images. -/
structure PRule where
  pfx : String
  decisionF : Option String
  reasonF : Option String
  riskF : RiskF
deriving DecidableEq

/-- ASCII uppercasing of one character (Python `str.upper` per char). -/
def charUpper (c : Char) : Char :=
  if 97 ≤ c.toNat ∧ c.toNat ≤ 122 then Char.ofNat (c.toNat - 32) else c

/-- ASCII uppercasing (Python `str.upper` on the rule strings involved). -/
def strUpper (s : String) : String := ⟨s.data.map charUpper⟩

/-- `str(rule.get("decision", "BLOCK")).upper()` collapsed to the verdict
set, defaulting to BLOCK. -/
def ruleDecision (r : PRule) : String :=
  let d := strUpper (match r.decisionF with | some s => s | none => "BLOCK")
  if d == "ALLOW" || d == "BLOCK" || d == "APPROVAL_REQUIRED" then d else "BLOCK"

/-- `rule.get("reason") or "Policy prefix match"` (empty string is falsy). -/
def ruleReason (r : PRule) : String :=
  match r.reasonF with
  | some s => if s == "" then "Policy prefix match" else s
  | none => "Policy prefix match"

/-- `float(rule.get("risk", 0.5))` with 0.5 on conversion failure. -/
def ruleRisk (r : PRule) : ℚ :=
  match r.riskF with
  | .num q => q
  | .bad => 1/2
  | .absent => 1/2

/-- Stable insertion, descending by pattern length (models Python's stable
`rules.sort(key=len, reverse=True)` when folded from the left). -/
def insertRule (x : PRule) : List PRule → List PRule
  | [] => [x]
  | y :: ys => if x.pfx.length ≤ y.pfx.length then y :: insertRule x ys else x :: y :: ys

/-- The sorted rule table built by `_prefix_rules`. -/
def sortRules (rules : List PRule) : List PRule :=
  rules.foldl (fun acc x => insertRule x acc) []

/-- `_policy_from_prefix` from `app/policy.py`: first matching rule of the
(sorted) table, with its decision, reason and risk computed as the source
does. -/
def policyFromPfx (sorted : List PRule) (tool : String) : Option (String × String × ℚ) :=
  match sorted.find? (fun r => strStarts tool r.pfx) with
  | some r => some (ruleDecision r, ruleReason r, ruleRisk r)
  | none => none

/-- `evaluate_policy` from `app/policy.py`. Non-string falsiness in the
`fs.list_dir` default is modelled as an empty `str()` image (that branch
is outside every claim). -/
def evaluate_policy (rules : List PRule) (tool : String) (args : ArgsMap) :
    String × String × ℚ :=
  if tool == "fs.list_dir" then
    let p0 := readPath args
    let path := if p0 == "" then "/sandbox" else p0
    if !(is_under_sandbox path) then ("BLOCK", "path must be under /sandbox", 1)
    else ("ALLOW", "Directory listing allowed", 0)
  else if tool == "fs.read_file" then
    let path := readPath args
    if path != "" && !(is_under_sandbox path) then
      ("BLOCK", "path must be under /sandbox", 1)
    else if BLOCKED_FILENAMES.any (fun b => strHasSub path b) then
      ("BLOCK", "Access to secret file denied", 1)
    else ("ALLOW", "File read allowed", 0)
  else if tool == "fs.write_file" then
    let p0 := readPath args
    let path := if p0 != "" && !(strStarts p0 "/") then "/sandbox/" ++ p0 else p0
    if !(is_under_sandbox path) then ("BLOCK", "path must be under /sandbox", 1)
    else ("APPROVAL_REQUIRED", "Write requires approval", 7/10)
  else
    match policyFromPfx (sortRules rules) tool with
    | some out => out
    | none => ("BLOCK", "Unknown tool", 1)

/-- The exact condition under which the source blocks an fs.read_file
proposal: a non-empty path outside the sandbox, or a blocklist entry
occurring anywhere in the path as a substring. -/
def readBlockCond (args : ArgsMap) : Prop :=
  (readPath args ≠ "" ∧ is_under_sandbox (readPath args) = false) ∨
    ∃ b ∈ BLOCKED_FILENAMES, strHasSub (readPath args) b = true

/-! ## Server routing (`app/db/queries.py`) -/

/-- A registered tool server as routing sees it: name and routing pattern
(`tool_prefix` column). -/
structure SrvReg where
  name : String
  pfx : String
deriving DecidableEq

/-- Loop body of `get_mcp_server_for_tool`: keep the best (longest) match,
first encountered wins ties. -/
def serverStep (tool : String) (best : Option SrvReg) (server : SrvReg) : Option SrvReg :=
  if strStarts tool server.pfx then
    match best with
    | none => some server
    | some b => if b.pfx.length < server.pfx.length then some server else some b
  else best

/-- `get_mcp_server_for_tool` from `app/db/queries.py`. -/
def get_mcp_server_for_tool (servers : List SrvReg) (tool : String) : Option SrvReg :=
  if tool == "" then none
  else servers.foldl (serverStep tool) none

/-! ## Server registration (`Mutation.register_mcp_server`) -/

/-- A base address, already split into the parts an allow-list inspects. -/
structure BaseUrl where
  scheme : String
  host : String
  rest : String
deriving DecidableEq

/-- The configured allow-list of schemes and hosts. -/
structure AllowListCfg where
  schemes : List String
  hosts : List String
deriving DecidableEq

/-- Modelled from the spec: `validate_mcp_base_url` is imported by the API
layer from the MCP client module but its definition is absent from the
source tree. Per the spec, base addresses are validated against a
configured allow-list of schemes/hosts before acceptance; an address not
on the allow-list is rejected (the mutation raises before touching the
registry). -/
def validate_mcp_base_url (cfg : AllowListCfg) (u : BaseUrl) : Except String BaseUrl :=
  if cfg.schemes.contains u.scheme && cfg.hosts.contains u.host then .ok u
  else .error "MCP base URL not allowed"

/-- One row of the server registry (`mcp_servers` table). -/
structure SrvRow where
  name : String
  base_url : BaseUrl
  pfx : String
  auth_header : Option String
  auth_token : Option String
deriving DecidableEq

/-- Replace the first row satisfying the filter (`query(...).first()`
followed by in-place mutation). -/
def replaceFirst (p : SrvRow → Bool) (f : SrvRow → SrvRow) : List SrvRow → List SrvRow
  | [] => []
  | s :: ss => if p s then f s :: ss else s :: replaceFirst p f ss

/-- `Mutation.register_mcp_server` from `app/graphql_schema.py`: validate
the base address, then upsert by name or routing pattern. An exception
from validation propagates before any registry access. -/
def register_mcp_server (cfg : AllowListCfg) (registry : List SrvRow)
    (name : String) (base_url : BaseUrl) (pfx : String)
    (auth_header auth_token : Option String) : List SrvRow × Except String SrvRow :=
  match validate_mcp_base_url cfg base_url with
  | .error e => (registry, .error e)
  | .ok u =>
    let upd : SrvRow := ⟨name, u, pfx, auth_header, auth_token⟩
    match registry.find? (fun s => s.name == name || s.pfx == pfx) with
    | some _ =>
      (replaceFirst (fun s => s.name == name || s.pfx == pfx) (fun _ => upd) registry,
        .ok upd)
    | none => (registry ++ [upd], .ok upd)

/-! ## Audit state and the approval controller (`app/core/audit.py`,
`Mutation.approve_tool_call`, `Mutation.deny_tool_call`) -/

/-- One row of `tool_calls`. The status default is the model's
`default="EXECUTED"` column default. -/
structure TCRow where
  id : Nat
  tool_name : String
  args_redacted : ArgsMap
  status : String
  approved_at : Option Nat
  approval_note : Option String
  approved_by : Option String
  result : Option String
deriving DecidableEq

/-- One row of `decisions`; `created_at` is the creation index. -/
structure DecRow where
  tool_call_id : Nat
  decision : String
  reason : String
  risk_score : Option ℚ
  created_at : Nat
deriving DecidableEq

/-- The audit store: tool calls and decisions in creation order. -/
structure AuditSt where
  toolCalls : List TCRow
  decisions : List DecRow
deriving DecidableEq

/-- The `ToolDecision` GraphQL payload (citation lists omitted: every
claim here is about the other fields). -/
structure ToolDec where
  tool_call_id : String
  decision : String
  reason : String
  result : Option String
  final_status : Option String
deriving DecidableEq

/-- `db.query(ToolCall).filter(ToolCall.id == id).first()`. -/
def find_tool_call (st : AuditSt) (id : Nat) : Option TCRow :=
  st.toolCalls.find? (fun tc => tc.id == id)

/-- `update_tool_call_status` from `app/core/audit.py`: set the status and
any of the optional approval fields that were passed. -/
def update_tool_call_status (st : AuditSt) (id : Nat) (status : String)
    (approved_at : Option Nat) (approval_note : Option String)
    (approved_by : Option String) : AuditSt :=
  { st with
    toolCalls := st.toolCalls.map (fun tc =>
      if tc.id == id then
        { tc with
          status := status
          approved_at := match approved_at with | some t => some t | none => tc.approved_at
          approval_note := match approval_note with | some n => some n | none => tc.approval_note
          approved_by := match approved_by with | some b => some b | none => tc.approved_by }
      else tc) }

/-- Modelled from the spec: `update_tool_call_result` is imported from the
audit module but absent from the source tree; per the spec's audit-store
operation set-tool-call-result, it sets the Tool Call's result field. -/
def update_tool_call_result (st : AuditSt) (id : Nat) (result : Option String) : AuditSt :=
  { st with
    toolCalls := st.toolCalls.map (fun tc =>
      if tc.id == id then { tc with result := result } else tc) }

/-- `persist_decision` from `app/core/audit.py`: append a decision row. -/
def persist_decision (st : AuditSt) (tcId : Nat) (decision reason : String)
    (risk : Option ℚ) : AuditSt :=
  { st with decisions := st.decisions ++ [⟨tcId, decision, reason, risk, st.decisions.length⟩] }

/-- `get_decision_for_tool_call` from `app/db/queries.py`: the latest
decision of the call by creation order. -/
def get_decision_for_tool_call (st : AuditSt) (tcId : Nat) : Option DecRow :=
  (st.decisions.filter (fun d => d.tool_call_id == tcId)).getLast?

/-- Outcome of a `call_tool` backend invocation as the mutation observes
it: the normalized result text, or the exception's reason text (detail or
`"Tool call failed: ..."`). -/
inductive BackendOutcome
  | ok (result_text : String)
  | fail (reason_text : String)

/-- A tool backend: `call_tool(name, args)`. -/
abbrev Backend := String → ArgsMap → BackendOutcome

/-- `Mutation.approve_tool_call` from `app/graphql_schema.py`. The steps
mirror the source: guard on existence and PENDING status, mark APPROVED,
invoke the backend on the stored redacted args, set the result, append
the decision (ALLOW "Approved" on success, BLOCK with the failure reason
otherwise), then unconditionally mark the call EXECUTED and return with
the final status read back from the updated row. -/
def approve_tool_call (backend : Backend) (now : Nat) (st : AuditSt) (tcId : Nat)
    (note : Option String) (approver : Option String) : AuditSt × ToolDec :=
  match find_tool_call st tcId with
  | none => (st, ⟨"n/a", "BLOCK", "Tool call not found", none, none⟩)
  | some tc =>
    if tc.status == "PENDING" then
      let st1 := update_tool_call_status st tcId "APPROVED" (some now) note
        (some (orStr approver "manual"))
      let out := backend tc.tool_name tc.args_redacted
      let dv := match out with | .ok _ => "ALLOW" | .fail _ => "BLOCK"
      let rt := match out with | .ok r => some r | .fail _ => none
      let reason := match out with | .ok _ => "Approved" | .fail m => m
      let st2 := update_tool_call_result st1 tcId rt
      let prior := get_decision_for_tool_call st2 tcId
      let risk := match prior with | some d => d.risk_score | none => some 0
      let st3 := persist_decision st2 tcId dv reason risk
      let st4 := update_tool_call_status st3 tcId "EXECUTED" none none none
      (st4, ⟨toString tcId, dv, reason, rt, some "EXECUTED"⟩)
    else
      (st, ⟨toString tcId, "BLOCK", "Tool call is not pending (status=" ++ tc.status ++ ")",
        none, none⟩)

/-- `Mutation.deny_tool_call` from `app/graphql_schema.py`. -/
def deny_tool_call (now : Nat) (st : AuditSt) (tcId : Nat)
    (note : Option String) (approver : Option String) : AuditSt × ToolDec :=
  match find_tool_call st tcId with
  | none => (st, ⟨"n/a", "BLOCK", "Tool call not found", none, none⟩)
  | some tc =>
    if tc.status == "PENDING" then
      let st1 := update_tool_call_status st tcId "DENIED" (some now) note
        (some (orStr approver "manual"))
      let prior := get_decision_for_tool_call st1 tcId
      let dv := match prior with
        | some d => if d.decision == "" then "APPROVAL_REQUIRED" else d.decision
        | none => "APPROVAL_REQUIRED"
      let rv := orStr note (match prior with
        | some d => if d.reason == "" then "Denied" else d.reason
        | none => "Denied")
      (st1, ⟨toString tcId, dv, rv, none, some "DENIED"⟩)
    else
      (st, ⟨toString tcId, "BLOCK", "Tool call is not pending (status=" ++ tc.status ++ ")",
        none, none⟩)

/-! ## The propose pipeline's event order (`Mutation.propose_tool_call`) -/

/-- The persistence and backend events of one `propose_tool_call`
invocation, in program order. -/
inductive Ev
  | createRun
  | createToolCall
  | setStatus
  | setResult
  | persistDecision
  | backendCall
  | commit
deriving DecidableEq

/-- The event trace of `Mutation.propose_tool_call` from
`app/graphql_schema.py`: args that fail to parse as a dict, then the
verdict branches; `backendOk` tells whether `call_tool` returns or
raises. -/
def proposeTrace (rules : List PRule) (tool : String) (args : Option ArgsMap)
    (backendOk : Bool) : List Ev :=
  match args with
  | none => [.createRun, .createToolCall, .persistDecision, .commit]
  | some parsed =>
    let tool_args := parsed.filter (fun kv => !(strStarts kv.1 "__"))
    let v := (evaluate_policy rules tool tool_args).1
    if v == "APPROVAL_REQUIRED" then
      [.createRun, .createToolCall, .setStatus, .persistDecision, .commit]
    else if v != "ALLOW" then
      [.createRun, .createToolCall, .persistDecision, .commit]
    else if backendOk then
      [.createRun, .createToolCall, .backendCall, .setResult, .setStatus, .persistDecision,
        .commit]
    else
      [.createRun, .createToolCall, .backendCall, .persistDecision, .commit]

/-- The ordering the claim asserts: every backend call is preceded by a
persisted decision. -/
def decBeforeBackendGo (seenDec : Bool) : List Ev → Bool
  | [] => true
  | .persistDecision :: rest => decBeforeBackendGo true rest
  | .backendCall :: rest => seenDec && decBeforeBackendGo seenDec rest
  | _ :: rest => decBeforeBackendGo seenDec rest

/-- Every backend call in the trace has a persisted decision before it. -/
def decBeforeBackend (tr : List Ev) : Bool := decBeforeBackendGo false tr

/-- The ordering the code actually guarantees: every backend call is
preceded by the tool-call row's creation and no decision is persisted
before a backend call. -/
def rowBeforeBackendGo (seenTC seenDec : Bool) : List Ev → Bool
  | [] => true
  | .createToolCall :: rest => rowBeforeBackendGo true seenDec rest
  | .persistDecision :: rest => rowBeforeBackendGo seenTC true rest
  | .backendCall :: rest => seenTC && !seenDec && rowBeforeBackendGo seenTC seenDec rest
  | _ :: rest => rowBeforeBackendGo seenTC seenDec rest

/-- Every backend call follows the tool-call row creation, and every
persisted decision follows the backend call. -/
def rowBeforeBackend (tr : List Ev) : Bool := rowBeforeBackendGo false false tr

/-! ## Paginated discovery (`McpStdioBackend.list_tools`) -/

/-- One advertised tool of a `tools/list` page: its optional name and the
canonical serialization used as the fallback dedup key. -/
structure ToolEntry where
  name : Option String
  dump : String
deriving DecidableEq

/-- One `tools/list` response: the page's tool dicts and the first truthy
cursor among `nextCursor` / `next_cursor` / `cursor` (`none` if absent). -/
structure ListPage where
  tools : List ToolEntry
  nextCursor : Option String
deriving DecidableEq

/-- The dedup key: `str(name)` if the name is present, else the sorted
JSON dump of the entry. -/
def toolKey (t : ToolEntry) : String :=
  match t.name with
  | some n => n
  | none => t.dump

/-- The inner dedup loop over one page's batch. -/
def collectPage (seen : List String) (acc : List ToolEntry) :
    List ToolEntry → List String × List ToolEntry
  | [] => (seen, acc)
  | t :: ts =>
    if seen.contains (toolKey t) then collectPage seen acc ts
    else collectPage (toolKey t :: seen) (acc ++ [t]) ts

/-- The paging loop of `McpStdioBackend.list_tools`. `resp i` is the
response to the i-th `tools/list` request of the single session; the fuel
starts at the page cap, so the loop body runs at most cap times. -/
def listToolsAux (resp : Nat → ListPage) :
    Nat → Nat → Option String → List String → List ToolEntry → List ToolEntry
  | 0, _, _, _, acc => acc
  | fuel + 1, i, cursor, seen, acc =>
    let page := resp i
    let sa := collectPage seen acc page.tools
    match page.nextCursor with
    | none => sa.2
    | some c =>
      if c == "" || some c == cursor then sa.2
      else listToolsAux resp fuel (i + 1) (some c) sa.1 sa.2

/-- `McpStdioBackend.list_tools` from `app/tool_backends/mcp_stdio.py`,
for a session whose i-th `tools/list` response is `resp i` and a page cap
(`MCP_STDIO_LIST_MAX_PAGES`, default 100). -/
def stdio_list_tools (resp : Nat → ListPage) (cap : Nat) : List ToolEntry :=
  listToolsAux resp cap 0 none [] []

/-- The number of pages the loop consults before stopping. -/
def visitedAux (resp : Nat → ListPage) : Nat → Nat → Option String → Nat
  | 0, i, _ => i
  | fuel + 1, i, cursor =>
    match (resp i).nextCursor with
    | none => i + 1
    | some c =>
      if c == "" || some c == cursor then i + 1
      else visitedAux resp fuel (i + 1) (some c)

/-- Pages consulted by `stdio_list_tools` with the given cap. -/
def visitedPages (resp : Nat → ListPage) (cap : Nat) : Nat :=
  visitedAux resp cap 0 none

/-- The concatenated tool batches of the pages the loop consults. -/
def pagesAux (resp : Nat → ListPage) : Nat → Nat → Option String → List ToolEntry
  | 0, _, _ => []
  | fuel + 1, i, cursor =>
    let page := resp i
    match page.nextCursor with
    | none => page.tools
    | some c =>
      if c == "" || some c == cursor then page.tools
      else page.tools ++ pagesAux resp fuel (i + 1) (some c)

/-- All tools advertised across the consulted pages, in order. -/
def visitedTools (resp : Nat → ListPage) (cap : Nat) : List ToolEntry :=
  pagesAux resp cap 0 none

/-- Keep the first occurrence of each dedup key (the spec's "deduplicate
by tool name"). -/
def dedupByKey (seen : List String) : List ToolEntry → List ToolEntry
  | [] => []
  | t :: ts =>
    if seen.contains (toolKey t) then dedupByKey seen ts
    else t :: dedupByKey (toolKey t :: seen) ts

/-- The continuation condition of the paging loop at page `i`: a fresh,
non-empty cursor. `cursor` is the cursor the request for page `i`
carried. -/
def freshCursor (resp : Nat → ListPage) (i : Nat) (cursor : Option String) : Prop :=
  ∃ c, (resp i).nextCursor = some c ∧ c ≠ "" ∧ some c ≠ cursor

/-- The cursor sent with the request for page `i` (none for the first
request, the previous page's cursor afterwards). -/
def cursorAt (resp : Nat → ListPage) : Nat → Option String
  | 0 => none
  | j + 1 => (resp j).nextCursor

/-! ## Theorems -/

theorem redactVal_idem (k : String) (v : JVal) :
    redactVal k (redactVal k v) = redactVal k v := by
  unfold redactVal
  by_cases hk : sensitiveKey k = true
  · simp [hk]
  · simp only [Bool.not_eq_true] at hk
    cases v with
    | str s =>
      by_cases hp : pathLike s = true
      · have hred : pathLike "***REDACTED_PATH***" = false := by decide
        simp [hk, hp, hred]
      · simp only [Bool.not_eq_true] at hp
        simp [hk, hp]
    | other r => simp [hk]

/-- C6: redaction is idempotent — redacting an already-redacted payload is
a no-op. -/
theorem redact_args_idempotent (args : ArgsMap) :
    redact_args (redact_args args) = redact_args args := by
  unfold redact_args
  rw [List.map_map]
  apply List.map_congr_left
  intro kv _
  simp [Function.comp, redactVal_idem]

theorem str_data_append (s t : String) : (s ++ t).data = s.data ++ t.data := by
  cases s; cases t; rfl

theorem startsList_append (xs ys : List Char) : startsList (xs ++ ys) xs = true := by
  induction xs with
  | nil => simp [startsList]
  | cons a l ih => simp [startsList, ih]

theorem strStarts_append_self (s t : String) : strStarts (s ++ t) s = true := by
  simp only [strStarts, String.toList]
  rw [str_data_append]
  exact startsList_append _ _

/-- C9: a non-empty relative path given to the fs.write_file rule is
rewritten under /sandbox, so it always yields APPROVAL_REQUIRED with risk
0.7 and is never blocked by the sandbox-boundary check. -/
theorem write_file_relative_path_approval (rules : List PRule) (args : ArgsMap) (p : String)
    (hl : args.lookup "path" = some (JVal.str p)) (hp : p ≠ "")
    (hs : strStarts p "/" = false) :
    evaluate_policy rules "fs.write_file" args
      = ("APPROVAL_REQUIRED", "Write requires approval", 7/10) := by
  have hrp : readPath args = p := by unfold readPath; rw [hl]; rfl
  unfold evaluate_policy
  rw [if_neg (by decide), if_neg (by decide), if_pos (by decide)]
  dsimp only
  rw [hrp]
  have hcond : (p != "" && !(strStarts p "/")) = true := by
    simp [hs, bne_iff_ne, hp]
  rw [if_pos hcond]
  have hu : is_under_sandbox ("/sandbox/" ++ p) = true := by
    unfold is_under_sandbox
    rw [strStarts_append_self]
    simp
  rw [hu]
  simp

theorem write_file_relative_path_approval_witness :
    evaluate_policy [] "fs.write_file" [("path", JVal.str "notes.txt")]
      = ("APPROVAL_REQUIRED", "Write requires approval", 7/10) :=
  write_file_relative_path_approval [] [("path", JVal.str "notes.txt")] "notes.txt"
    rfl (by decide) (by decide)

/-- C3 counterexample: the code blocks "/sandbox/a.envelope" although the
path is inside the sandbox, its file name is not in the blocklist and its
suffix is not in the blocklist — the blocklist test is a substring test,
so the claimed name-or-suffix characterisation is false. -/
theorem read_file_blocklist_counterexample :
    (evaluate_policy [] "fs.read_file" [("path", JVal.str "/sandbox/a.envelope")]).1 = "BLOCK"
      ∧ is_under_sandbox "/sandbox/a.envelope" = true
      ∧ BLOCKED_FILENAMES.all
          (fun b => !(strEnds "/sandbox/a.envelope" b) && b != "a.envelope") = true := by
  refine ⟨?_, by decide, by decide⟩
  decide

/-- C3 amended: fs.read_file yields BLOCK exactly when the path is
non-empty and outside the sandbox or a blocklist entry occurs in the path
as a substring, and ALLOW otherwise. -/
theorem read_file_verdict_characterization (rules : List PRule) (args : ArgsMap) :
    ((evaluate_policy rules "fs.read_file" args).1 = "BLOCK" ↔ readBlockCond args)
      ∧ ((evaluate_policy rules "fs.read_file" args).1 = "ALLOW" ↔ ¬ readBlockCond args) := by
  unfold evaluate_policy
  rw [if_neg (by decide), if_pos (by decide)]
  dsimp only
  by_cases h1 : (readPath args != "" && !(is_under_sandbox (readPath args))) = true
  · rw [if_pos h1]
    have hc : readBlockCond args := by
      simp only [Bool.and_eq_true, bne_iff_ne, ne_eq, Bool.not_eq_true'] at h1
      exact Or.inl h1
    exact ⟨iff_of_true rfl hc, iff_of_false (by decide) (not_not_intro hc)⟩
  · rw [if_neg h1]
    by_cases h2 : (BLOCKED_FILENAMES.any fun b => strHasSub (readPath args) b) = true
    · rw [if_pos h2]
      have hc : readBlockCond args := by
        rw [List.any_eq_true] at h2
        exact Or.inr h2
      exact ⟨iff_of_true rfl hc, iff_of_false (by decide) (not_not_intro hc)⟩
    · rw [if_neg h2]
      have hc : ¬ readBlockCond args := by
        rintro (⟨hne, hout⟩ | hsub)
        · exact h1 (by simp [bne_iff_ne, hne, hout])
        · exact h2 (List.any_eq_true.mpr hsub)
      exact ⟨iff_of_false (by decide) hc, iff_of_true rfl hc⟩

/-- C4 counterexample: a configured rule with numeric risk 2 makes policy
evaluation return risk 2, outside [0,1] — risk scores are not clamped. -/
theorem pfx_rule_risk_not_clamped :
    evaluate_policy [⟨"x.", some "ALLOW", none, RiskF.num 2⟩] "x.y" []
        = ("ALLOW", "Policy prefix match", 2)
      ∧ ¬ ((2 : ℚ) ≤ 1) := by
  refine ⟨rfl, by norm_num⟩

/-- C4 amended: the risk score returned for a matched rule is exactly
`ruleRisk` of that rule — the numeric value unchanged, with no clamping
into [0,1] (only a non-numeric or absent value falls back to 0.5). -/
theorem pfx_rule_risk_passthrough (l : List PRule) (tool d re : String) (q : ℚ)
    (h : policyFromPfx l tool = some (d, re, q)) :
    ∃ r ∈ l, strStarts tool r.pfx = true ∧ q = ruleRisk r := by
  unfold policyFromPfx at h
  cases hf : l.find? (fun r => strStarts tool r.pfx) with
  | none => rw [hf] at h; exact absurd h (by simp)
  | some r =>
    rw [hf] at h
    have hm := List.mem_of_find?_eq_some hf
    have hp := List.find?_some hf
    simp only [Option.some.injEq, Prod.mk.injEq] at h
    exact ⟨r, hm, hp, h.2.2.symm⟩

theorem pfx_rule_risk_passthrough_witness :
    ∃ r ∈ [(⟨"x.", some "ALLOW", none, RiskF.num 2⟩ : PRule)],
      strStarts "x.y" r.pfx = true ∧ (2 : ℚ) = ruleRisk r :=
  pfx_rule_risk_passthrough [⟨"x.", some "ALLOW", none, RiskF.num 2⟩] "x.y"
    "ALLOW" "Policy prefix match" 2 rfl

theorem strStarts_empty_imp (p : String) (h : strStarts "" p = true) : p.length = 0 := by
  unfold strStarts at h
  cases hp : p.toList with
  | nil =>
    have hd : p.data = [] := hp
    simp [String.length, hd]
  | cons a l =>
    rw [hp] at h
    simp [startsList] at h

theorem foldl_serverStep_keep (tool : String) (b : SrvReg) (_hb : strStarts tool b.pfx = true)
    (l : List SrvReg)
    (h : ∀ s ∈ l, strStarts tool s.pfx = true → s.pfx.length ≤ b.pfx.length) :
    l.foldl (serverStep tool) (some b) = some b := by
  induction l with
  | nil => rfl
  | cons y ys ih =>
    simp only [List.foldl_cons]
    have hstep : serverStep tool (some b) y = some b := by
      unfold serverStep
      by_cases hy : strStarts tool y.pfx = true
      · rw [if_pos hy]
        have hle : ¬ (b.pfx.length < y.pfx.length) := by
          have := h y (List.mem_cons_self _ _) hy
          omega
        simp only
        rw [if_neg hle]
      · rw [if_neg hy]
    rw [hstep]
    exact ih (fun s hs hm => h s (List.mem_cons_of_mem _ hs) hm)

theorem foldl_serverStep_main (tool : String) (s : SrvReg) (hs : strStarts tool s.pfx = true) :
    ∀ (l : List SrvReg) (acc : Option SrvReg),
      s ∈ l →
      (∀ s' ∈ l, strStarts tool s'.pfx = true → s' = s ∨ s'.pfx.length < s.pfx.length) →
      (acc = none ∨ ∃ b, acc = some b ∧ strStarts tool b.pfx = true ∧
        b.pfx.length < s.pfx.length) →
      l.foldl (serverStep tool) acc = some s := by
  intro l
  induction l with
  | nil => intro acc hmem _ _; exact absurd hmem (List.not_mem_nil s)
  | cons y ys ih =>
    intro acc hmem hall hacc
    simp only [List.foldl_cons]
    by_cases hy : strStarts tool y.pfx = true
    · by_cases hys : y = s
      · subst hys
        have hstep : serverStep tool acc y = some y := by
          unfold serverStep
          rw [if_pos hy]
          rcases hacc with h0 | ⟨b, hb, _, hbl⟩
          · rw [h0]
          · rw [hb]
            simp only
            rw [if_pos hbl]
        rw [hstep]
        refine foldl_serverStep_keep tool y hy ys (fun s' h1 h2 => ?_)
        rcases hall s' (List.mem_cons_of_mem _ h1) h2 with h3 | h3
        · rw [h3]
        · omega
      · have hyl : y.pfx.length < s.pfx.length := by
          rcases hall y (List.mem_cons_self _ _) hy with h3 | h3
          · exact absurd h3 hys
          · exact h3
        have hmem' : s ∈ ys := by
          rcases List.mem_cons.mp hmem with h3 | h3
          · exact absurd h3.symm hys
          · exact h3
        have hacc' : serverStep tool acc y = none ∨
            ∃ b, serverStep tool acc y = some b ∧ strStarts tool b.pfx = true ∧
              b.pfx.length < s.pfx.length := by
          unfold serverStep
          rw [if_pos hy]
          rcases hacc with h0 | ⟨b, hb, hbm, hbl⟩
          · rw [h0]
            exact Or.inr ⟨y, rfl, hy, hyl⟩
          · rw [hb]
            simp only
            by_cases hcmp : b.pfx.length < y.pfx.length
            · rw [if_pos hcmp]
              exact Or.inr ⟨y, rfl, hy, hyl⟩
            · rw [if_neg hcmp]
              exact Or.inr ⟨b, rfl, hbm, hbl⟩
        exact ih (serverStep tool acc y) hmem'
          (fun s' h1 h2 => hall s' (List.mem_cons_of_mem _ h1) h2) hacc'
    · have hstep : serverStep tool acc y = acc := by
        unfold serverStep
        rw [if_neg hy]
      have hmem' : s ∈ ys := by
        rcases List.mem_cons.mp hmem with h3 | h3
        · subst h3
          exact absurd hs hy
        · exact h3
      rw [hstep]
      exact ih acc hmem' (fun s' h1 h2 => hall s' (List.mem_cons_of_mem _ h1) h2) hacc

/-- C5: when a tool name matches the patterns of two or more registered
servers and one matching server's pattern is strictly longest, lookup
resolves to exactly that server. -/
theorem longest_pfx_server_resolution (servers : List SrvReg) (tool : String) (s : SrvReg)
    (hmem : s ∈ servers) (hs : strStarts tool s.pfx = true)
    (hsecond : ∃ s' ∈ servers, s' ≠ s ∧ strStarts tool s'.pfx = true)
    (hmax : ∀ s' ∈ servers, strStarts tool s'.pfx = true →
      s' = s ∨ s'.pfx.length < s.pfx.length) :
    get_mcp_server_for_tool servers tool = some s := by
  obtain ⟨s', hmem', hne, hm'⟩ := hsecond
  have hlen : 0 < s.pfx.length := by
    rcases hmax s' hmem' hm' with h | h
    · exact absurd h hne
    · omega
  have htool : tool ≠ "" := by
    intro h
    subst h
    have := strStarts_empty_imp s.pfx hs
    omega
  unfold get_mcp_server_for_tool
  rw [if_neg (by simp [htool])]
  exact foldl_serverStep_main tool s hs servers none hmem hmax (Or.inl rfl)

theorem longest_pfx_server_resolution_witness :
    get_mcp_server_for_tool [⟨"alpha", "fs."⟩, ⟨"beta", "fs.read"⟩] "fs.read_file"
      = some ⟨"beta", "fs.read"⟩ :=
  longest_pfx_server_resolution [⟨"alpha", "fs."⟩, ⟨"beta", "fs.read"⟩] "fs.read_file"
    ⟨"beta", "fs.read"⟩ (by decide) (by decide)
    ⟨⟨"alpha", "fs."⟩, by decide, by decide, by decide⟩ (by decide)

/-- C8: a base address rejected by the allow-list validation makes the
registration mutation fail before touching the registry — no row is
created or updated. -/
theorem register_rejected_url_leaves_registry_unchanged (cfg : AllowListCfg)
    (registry : List SrvRow) (name : String) (base_url : BaseUrl) (pfx : String)
    (auth_header auth_token : Option String)
    (h : (cfg.schemes.contains base_url.scheme && cfg.hosts.contains base_url.host) = false) :
    (register_mcp_server cfg registry name base_url pfx auth_header auth_token).1 = registry
      ∧ ∃ e, (register_mcp_server cfg registry name base_url pfx auth_header auth_token).2
          = Except.error e := by
  unfold register_mcp_server validate_mcp_base_url
  rw [h]
  exact ⟨rfl, "MCP base URL not allowed", rfl⟩

theorem register_rejected_url_leaves_registry_unchanged_witness :
    (register_mcp_server ⟨["http"], ["mcp-sandbox"]⟩ [] "srv" ⟨"file", "evil", ""⟩ "fs."
        none none).1 = []
      ∧ ∃ e, (register_mcp_server ⟨["http"], ["mcp-sandbox"]⟩ [] "srv" ⟨"file", "evil", ""⟩
          "fs." none none).2 = Except.error e :=
  register_rejected_url_leaves_registry_unchanged ⟨["http"], ["mcp-sandbox"]⟩ [] "srv"
    ⟨"file", "evil", ""⟩ "fs." none none (by decide)

/-- C10: approving or denying a tool call that does not exist, or whose
status is not PENDING, returns a BLOCK decision and leaves the audit
state entirely unchanged. -/
theorem approve_deny_invalid_target_no_mutation (backend : Backend) (now : Nat)
    (st : AuditSt) (tcId : Nat) (note approver : Option String)
    (h : find_tool_call st tcId = none ∨
      ∃ tc, find_tool_call st tcId = some tc ∧ tc.status ≠ "PENDING") :
    (approve_tool_call backend now st tcId note approver).1 = st
      ∧ (approve_tool_call backend now st tcId note approver).2.decision = "BLOCK"
      ∧ (deny_tool_call now st tcId note approver).1 = st
      ∧ (deny_tool_call now st tcId note approver).2.decision = "BLOCK" := by
  unfold approve_tool_call deny_tool_call
  rcases h with h0 | ⟨tc, htc, hst⟩
  · rw [h0]
    exact ⟨rfl, rfl, rfl, rfl⟩
  · rw [htc]
    have hb : (tc.status == "PENDING") = false := by
      simp [hst]
    simp only [hb]
    exact ⟨rfl, rfl, rfl, rfl⟩

theorem approve_deny_invalid_target_no_mutation_witness :
    (approve_tool_call (fun _ _ => BackendOutcome.ok "done") 3 ⟨[], []⟩ 7 none none).1
        = ⟨[], []⟩
      ∧ (approve_tool_call (fun _ _ => BackendOutcome.ok "done") 3 ⟨[], []⟩ 7
          none none).2.decision = "BLOCK"
      ∧ (deny_tool_call 3 ⟨[], []⟩ 7 none none).1 = ⟨[], []⟩
      ∧ (deny_tool_call 3 ⟨[], []⟩ 7 none none).2.decision = "BLOCK" :=
  approve_deny_invalid_target_no_mutation (fun _ _ => BackendOutcome.ok "done") 3
    ⟨[], []⟩ 7 none none (Or.inl rfl)

/-- C1: the code violates the claimed invariant. Approving a PENDING tool
call whose backend execution fails leaves the call with status EXECUTED
while its decision history is APPROVAL_REQUIRED followed by BLOCK — an
EXECUTED tool call with no ALLOW decision at all, instead of the claimed
terminal failed state. -/
theorem approve_failure_marks_executed_without_allow :
    ((approve_tool_call (fun _ _ => BackendOutcome.fail "Tool call failed: connection error")
        5
        ⟨[⟨1, "fs.write_file", [("path", JVal.str "/sandbox/t.txt")], "PENDING",
            none, none, none, none⟩],
          [⟨1, "APPROVAL_REQUIRED", "Write requires approval", some (7/10), 0⟩]⟩
        1 (some "ok") (some "op")).1.toolCalls.map TCRow.status = ["EXECUTED"])
      ∧ ((approve_tool_call
          (fun _ _ => BackendOutcome.fail "Tool call failed: connection error") 5
          ⟨[⟨1, "fs.write_file", [("path", JVal.str "/sandbox/t.txt")], "PENDING",
              none, none, none, none⟩],
            [⟨1, "APPROVAL_REQUIRED", "Write requires approval", some (7/10), 0⟩]⟩
          1 (some "ok") (some "op")).1.decisions.map DecRow.decision
        = ["APPROVAL_REQUIRED", "BLOCK"]) := by
  exact ⟨rfl, rfl⟩

/-- C2 counterexample: on an allowed fs.read_file proposal the backend
call strictly precedes the persistence of the governing decision, so the
claimed decision-before-effect ordering is false (the trace does contain
a backend call). -/
theorem propose_backend_call_precedes_decision :
    decBeforeBackend
        (proposeTrace [] "fs.read_file" (some [("path", JVal.str "/sandbox/a.txt")]) true)
      = false
      ∧ Ev.backendCall
          ∈ proposeTrace [] "fs.read_file" (some [("path", JVal.str "/sandbox/a.txt")]) true := by
  exact ⟨rfl, by decide⟩

/-- C2 amended: on every proposal the tool-call row is persisted before
any backend call, and the decision governing an executed call is appended
only after the backend call returns. -/
theorem propose_row_precedes_backend (rules : List PRule) (tool : String)
    (args : Option ArgsMap) (backendOk : Bool) :
    rowBeforeBackend (proposeTrace rules tool args backendOk) = true := by
  unfold proposeTrace
  cases args with
  | none => rfl
  | some parsed =>
    dsimp only
    split
    · rfl
    · split
      · rfl
      · split
        · rfl
        · rfl

/-- The seen-set after processing one batch (characterizes `collectPage`). -/
def seenAfter (seen : List String) : List ToolEntry → List String
  | [] => seen
  | t :: ts =>
    if seen.contains (toolKey t) then seenAfter seen ts
    else seenAfter (toolKey t :: seen) ts

theorem collectPage_eq (ts : List ToolEntry) : ∀ seen acc,
    collectPage seen acc ts = (seenAfter seen ts, acc ++ dedupByKey seen ts) := by
  induction ts with
  | nil => intro seen acc; simp [collectPage, seenAfter, dedupByKey]
  | cons t ts ih =>
    intro seen acc
    by_cases h : toolKey t ∈ seen
    · simp [collectPage, seenAfter, dedupByKey, h, ih]
    · simp [collectPage, seenAfter, dedupByKey, h, ih]

theorem dedupByKey_append (ts : List ToolEntry) : ∀ us seen,
    dedupByKey seen (ts ++ us) = dedupByKey seen ts ++ dedupByKey (seenAfter seen ts) us := by
  induction ts with
  | nil => intro us seen; simp [dedupByKey, seenAfter]
  | cons t ts ih =>
    intro us seen
    by_cases h : toolKey t ∈ seen
    · simp [dedupByKey, seenAfter, h, ih]
    · simp [dedupByKey, seenAfter, h, ih]

theorem listToolsAux_eq (resp : Nat → ListPage) (fuel : Nat) : ∀ i cursor seen acc,
    listToolsAux resp fuel i cursor seen acc
      = acc ++ dedupByKey seen (pagesAux resp fuel i cursor) := by
  induction fuel with
  | zero => intro i cursor seen acc; simp [listToolsAux, pagesAux, dedupByKey]
  | succ n ih =>
    intro i cursor seen acc
    unfold listToolsAux pagesAux
    cases hnc : (resp i).nextCursor with
    | none => simp [collectPage_eq, hnc]
    | some c =>
      by_cases hbr : (c = "" ∨ some c = cursor)
      · simp [collectPage_eq, hnc, hbr]
      · simp [collectPage_eq, hnc, hbr, ih, dedupByKey_append]

theorem dedupByKey_keys (ts : List ToolEntry) : ∀ seen,
    ((dedupByKey seen ts).map toolKey).Nodup
      ∧ ∀ k ∈ (dedupByKey seen ts).map toolKey, k ∉ seen := by
  induction ts with
  | nil => intro seen; simp [dedupByKey]
  | cons t ts ih =>
    intro seen
    by_cases h : toolKey t ∈ seen
    · simpa [dedupByKey, h] using ih seen
    · obtain ⟨ih1, ih2⟩ := ih (toolKey t :: seen)
      have hd : dedupByKey seen (t :: ts) = t :: dedupByKey (toolKey t :: seen) ts := by
        simp [dedupByKey, h]
      rw [hd, List.map_cons]
      constructor
      · refine List.nodup_cons.mpr ⟨?_, ih1⟩
        intro hmem
        exact (ih2 _ hmem) (List.mem_cons_self _ _)
      · intro k hk
        rcases List.mem_cons.mp hk with hk1 | hk2
        · subst hk1; exact h
        · intro hks
          exact (ih2 k hk2) (List.mem_cons_of_mem _ hks)

theorem visitedAux_le (resp : Nat → ListPage) (fuel : Nat) : ∀ i cursor,
    visitedAux resp fuel i cursor ≤ i + fuel := by
  induction fuel with
  | zero => intro i cursor; simp [visitedAux]
  | succ n ih =>
    intro i cursor
    unfold visitedAux
    cases hnc : (resp i).nextCursor with
    | none => dsimp only; omega
    | some c =>
      dsimp only
      by_cases hbr : (c == "" || some c == cursor) = true
      · rw [if_pos hbr]
        omega
      · rw [if_neg hbr]
        have := ih (i + 1) (some c)
        omega

theorem visitedAux_ge (resp : Nat → ListPage) (fuel : Nat) : ∀ i cursor,
    i ≤ visitedAux resp fuel i cursor := by
  induction fuel with
  | zero => intro i cursor; simp [visitedAux]
  | succ n ih =>
    intro i cursor
    unfold visitedAux
    cases hnc : (resp i).nextCursor with
    | none => dsimp only; omega
    | some c =>
      dsimp only
      by_cases hbr : (c == "" || some c == cursor) = true
      · rw [if_pos hbr]
        omega
      · rw [if_neg hbr]
        have := ih (i + 1) (some c)
        omega

theorem visitedAux_none (resp : Nat → ListPage) (n i : Nat) (cursor : Option String)
    (h : (resp i).nextCursor = none) :
    visitedAux resp (n + 1) i cursor = i + 1 := by
  unfold visitedAux
  rw [h]

theorem visitedAux_break (resp : Nat → ListPage) (n i : Nat) (cursor : Option String)
    (c : String) (h : (resp i).nextCursor = some c)
    (hbr : (c == "" || some c == cursor) = true) :
    visitedAux resp (n + 1) i cursor = i + 1 := by
  unfold visitedAux
  rw [h]
  dsimp only
  rw [if_pos hbr]

theorem visitedAux_cont (resp : Nat → ListPage) (n i : Nat) (cursor : Option String)
    (c : String) (h : (resp i).nextCursor = some c)
    (hbr : (c == "" || some c == cursor) = false) :
    visitedAux resp (n + 1) i cursor = visitedAux resp n (i + 1) (some c) := by
  conv_lhs => unfold visitedAux
  rw [h]
  dsimp only
  rw [if_neg (by simp [hbr])]

theorem visitedAux_succ_ge (resp : Nat → ListPage) (n : Nat) : ∀ i cursor,
    i + 1 ≤ visitedAux resp (n + 1) i cursor := by
  intro i cursor
  cases hnc : (resp i).nextCursor with
  | none => rw [visitedAux_none resp n i cursor hnc]
  | some c =>
    by_cases hbr : (c == "" || some c == cursor) = true
    · rw [visitedAux_break resp n i cursor c hnc hbr]
    · rw [visitedAux_cont resp n i cursor c hnc (by simpa using hbr)]
      have := visitedAux_ge resp n (i + 1) (some c)
      omega

theorem visitedAux_fresh (resp : Nat → ListPage) (fuel : Nat) : ∀ i cursor j,
    i ≤ j → j + 1 < visitedAux resp fuel i cursor →
    ∃ c, (resp j).nextCursor = some c ∧ c ≠ ""
      ∧ some c ≠ (if j = i then cursor else (resp (j - 1)).nextCursor) := by
  induction fuel with
  | zero =>
    intro i cursor j hij hlt
    simp [visitedAux] at hlt
    omega
  | succ n ih =>
    intro i cursor j hij hlt
    cases hnc : (resp i).nextCursor with
    | none =>
      rw [visitedAux_none resp n i cursor hnc] at hlt
      omega
    | some c =>
      by_cases hbr : (c == "" || some c == cursor) = true
      · rw [visitedAux_break resp n i cursor c hnc hbr] at hlt
        omega
      · rw [visitedAux_cont resp n i cursor c hnc (by simpa using hbr)] at hlt
        have hbr2 : c ≠ "" ∧ some c ≠ cursor := by
          simp only [Bool.or_eq_true, beq_iff_eq] at hbr
          push_neg at hbr
          exact hbr
        by_cases hj : j = i
        · subst hj
          refine ⟨c, hnc, hbr2.1, ?_⟩
          rw [if_pos rfl]
          exact hbr2.2
        · have hij2 : i + 1 ≤ j := by omega
          obtain ⟨c2, hc1, hc2, hc3⟩ := ih (i + 1) (some c) j hij2 hlt
          refine ⟨c2, hc1, hc2, ?_⟩
          rw [if_neg hj]
          by_cases hj1 : j = i + 1
          · rw [if_pos hj1] at hc3
            have hj2 : j - 1 = i := by omega
            rw [hj2, hnc]
            exact hc3
          · rw [if_neg hj1] at hc3
            exact hc3

theorem visitedAux_stop (resp : Nat → ListPage) (fuel : Nat) : ∀ i cursor,
    visitedAux resp fuel i cursor < i + fuel →
    ¬ freshCursor resp (visitedAux resp fuel i cursor - 1)
      (if visitedAux resp fuel i cursor - 1 = i then cursor
        else (resp (visitedAux resp fuel i cursor - 2)).nextCursor) := by
  induction fuel with
  | zero =>
    intro i cursor h
    simp [visitedAux] at h
  | succ n ih =>
    intro i cursor hlt
    cases hnc : (resp i).nextCursor with
    | none =>
      rw [visitedAux_none resp n i cursor hnc] at hlt ⊢
      have h1 : i + 1 - 1 = i := by omega
      rw [h1, if_pos rfl]
      rintro ⟨c, hc, _, _⟩
      rw [hnc] at hc
      exact Option.noConfusion hc
    | some c =>
      by_cases hbr : (c == "" || some c == cursor) = true
      · rw [visitedAux_break resp n i cursor c hnc hbr] at hlt ⊢
        have h1 : i + 1 - 1 = i := by omega
        rw [h1, if_pos rfl]
        rintro ⟨c2, hc2, hne, hnec⟩
        rw [hnc] at hc2
        have hcc : c2 = c := by
          injection hc2 with h2
          exact h2.symm
        subst hcc
        simp only [Bool.or_eq_true, beq_iff_eq] at hbr
        rcases hbr with hb | hb
        · exact hne hb
        · exact hnec (by rw [hb])
      · rw [visitedAux_cont resp n i cursor c hnc (by simpa using hbr)] at hlt ⊢
        have hge : i + 1 ≤ visitedAux resp n (i + 1) (some c) :=
          visitedAux_ge resp n (i + 1) (some c)
        cases n with
        | zero =>
          have hz : visitedAux resp 0 (i + 1) (some c) = i + 1 := by simp [visitedAux]
          omega
        | succ m =>
          have hlt2 : visitedAux resp (m + 1) (i + 1) (some c) < (i + 1) + (m + 1) := by
            omega
          have hstop := ih (i + 1) (some c) hlt2
          have h2 : i + 2 ≤ visitedAux resp (m + 1) (i + 1) (some c) :=
            visitedAux_succ_ge resp m (i + 1) (some c)
          have hne : visitedAux resp (m + 1) (i + 1) (some c) - 1 ≠ i := by omega
          rw [if_neg hne]
          by_cases hj : visitedAux resp (m + 1) (i + 1) (some c) - 1 = i + 1
          · rw [if_pos hj] at hstop
            have hv2 : visitedAux resp (m + 1) (i + 1) (some c) - 2 = i := by omega
            rw [hv2, hnc]
            exact hstop
          · rw [if_neg hj] at hstop
            exact hstop

/-- C7: discovery pages through tools/list within one session: the
collected list is exactly the first-occurrence dedup by tool key of the
consulted pages' tools (so at most one entry per tool name), the number
of pages consulted never exceeds the cap, paging continues past a page
only when that page supplied a fresh non-empty cursor, and when the loop
stops below the cap the last consulted page's cursor was absent, empty or
equal to the previous cursor. -/
theorem stdio_discovery_pagination_dedup (resp : Nat → ListPage) (cap : Nat) :
    stdio_list_tools resp cap = dedupByKey [] (visitedTools resp cap)
      ∧ ((stdio_list_tools resp cap).map toolKey).Nodup
      ∧ visitedPages resp cap ≤ cap
      ∧ (∀ j, j + 1 < visitedPages resp cap → freshCursor resp j (cursorAt resp j))
      ∧ (0 < visitedPages resp cap → visitedPages resp cap < cap →
          ¬ freshCursor resp (visitedPages resp cap - 1)
            (cursorAt resp (visitedPages resp cap - 1))) := by
  have heq : stdio_list_tools resp cap = dedupByKey [] (visitedTools resp cap) := by
    unfold stdio_list_tools visitedTools
    simpa using listToolsAux_eq resp cap 0 none [] []
  refine ⟨heq, ?_, ?_, ?_, ?_⟩
  · rw [heq]
    exact (dedupByKey_keys (visitedTools resp cap) []).1
  · unfold visitedPages
    simpa using visitedAux_le resp cap 0 none
  · intro j hj
    unfold visitedPages at hj
    obtain ⟨c, h1, h2, h3⟩ := visitedAux_fresh resp cap 0 none j (Nat.zero_le _) hj
    refine ⟨c, h1, h2, ?_⟩
    cases j with
    | zero =>
      rw [if_pos rfl] at h3
      exact h3
    | succ k =>
      rw [if_neg (by omega)] at h3
      simpa using h3
  · intro h0 hcap
    unfold visitedPages at h0 hcap ⊢
    have hstop := visitedAux_stop resp cap 0 none (by simpa using hcap)
    cases hv : visitedAux resp cap 0 none with
    | zero => omega
    | succ k =>
      rw [hv] at hstop
      cases k with
      | zero => simpa using hstop
      | succ m => simpa using hstop
